import Mathlib

set_option linter.unusedSectionVars false
set_option linter.unusedVariables false

instance {ε α : Type} [DecidableEq ε] [DecidableEq α] : DecidableEq (Except ε α)
  | Except.error x, Except.error y => decidable_of_iff (x = y) (by simp)
  | Except.error x, Except.ok y => isFalse (by simp)
  | Except.ok x, Except.error y => isFalse (by simp)
  | Except.ok x, Except.ok y => decidable_of_iff (x = y) (by simp)

/-!
Shallow embedding of the `i_am_freq_remapper` phase-vocoder engine
(`src/ring_buffer.rs`, `src/phase_vocoder.rs`) and proofs about it.

Conventions of the embedding:
* `usize` becomes `Nat`, `isize` becomes `Int`; the Rust `%` on `isize`
  is truncated remainder, embedded as `Int.tmod`.
* `f32` samples and frequencies become `ℚ`.  The claims settled here are
  control-flow and state-shape properties that do not depend on rounding,
  and every `f32` constant occurring in them (such as `f32::consts::PI`)
  is an exact rational.
* External crates are oracle parameters: the `rhai` scripting engine and
  the `std` hasher are a `RhaiEnv` record of abstract functions, and the
  `rustfft` / `num_complex` operations (`norm`, `arg`, `from_polar`) are
  a `SpectralOps` record.  Complex numbers are pairs of rationals.
* Code that can panic is modelled twice: a total function for the
  non-panicking path, plus an `Option`-valued variant (suffix `?`) that
  returns `none` exactly where the Rust code would panic.
-/

/-! ## Circular buffer (`src/ring_buffer.rs`) -/

/-- Embeds `struct RingBuffer<T: Default>`: fixed capacity, one write
cursor, a backing store (`Vec<T>` becomes `List T`). -/
structure RingBuffer (T : Type) where
  capacity : Nat
  current_pos : Nat
  buffer : List T
  deriving Repr, DecidableEq

namespace RingBuffer

variable {T : Type} [Inhabited T]

/-- Embeds `RingBuffer::new(capacity)`: `capacity` default-filled slots,
cursor 0 (`vec![T::default(); capacity]`). -/
def new (capacity : Nat) : RingBuffer T :=
  { capacity := capacity, current_pos := 0, buffer := List.replicate capacity default }

/-- Embeds `RingBuffer::push` (write at cursor, advance cursor mod
capacity) on its non-panicking path. -/
def push (b : RingBuffer T) (value : T) : RingBuffer T :=
  { b with
    buffer := b.buffer.set b.current_pos value,
    current_pos := (b.current_pos + 1) % b.capacity }

/-- Fallible view of `RingBuffer::push`: `self.buffer[self.current_pos]`
panics when the cursor is out of bounds, and `% self.capacity` panics
when the capacity is zero; `none` models the panic. -/
def push? (b : RingBuffer T) (value : T) : Option (RingBuffer T) :=
  if b.current_pos < b.buffer.length ∧ b.capacity ≠ 0 then some (b.push value) else none

/-- Embeds `Index<usize> for RingBuffer`: slot `(idx + current_pos) %
capacity`, on its non-panicking path. -/
def index (b : RingBuffer T) (idx : Nat) : T :=
  b.buffer.getD ((idx + b.current_pos) % b.capacity) default

/-- Fallible view of `Index<usize>`: `% capacity` panics at capacity 0
and the `Vec` indexing panics out of bounds; `none` models the panic. -/
def index? (b : RingBuffer T) (idx : Nat) : Option T :=
  if b.capacity = 0 then none else b.buffer.get? ((idx + b.current_pos) % b.capacity)

/-- Embeds `Index<isize> for RingBuffer`: truncated remainder by the
capacity, shifted into `[0, capacity)` when negative, then the unsigned
indexing. -/
def indexSigned (b : RingBuffer T) (idx : Int) : T :=
  let idx1 := Int.tmod idx (b.capacity : Int)
  let idx2 := if idx1 < 0 then idx1 + (b.capacity : Int) else idx1
  b.index idx2.toNat

/-- Embeds `RingBuffer::extend_defaults(len)`: fail when `capacity <
len`, otherwise push `len` default values (`for _ in 0..len`). -/
def extend_defaults (b : RingBuffer T) (len : Nat) : Bool × RingBuffer T :=
  if b.capacity < len then (false, b)
  else (true, (List.range len).foldl (fun acc _ => acc.push default) b)

/-- Pushing a whole list, oldest first. -/
def pushAll (b : RingBuffer T) (vs : List T) : RingBuffer T :=
  vs.foldl push b

/-- The well-formedness `RingBuffer::new` establishes and `push`
preserves (for positive capacity): store sized to capacity, cursor in
range. -/
def WF (b : RingBuffer T) : Prop :=
  b.buffer.length = b.capacity ∧ b.current_pos < b.capacity

instance (b : RingBuffer T) : Decidable b.WF :=
  inferInstanceAs (Decidable (b.buffer.length = b.capacity ∧ b.current_pos < b.capacity))

theorem wf_new {c : Nat} (hc : 0 < c) : (new (T := T) c).WF := by
  constructor
  · simp [new]
  · simpa [new] using hc

theorem wf_push {b : RingBuffer T} (h : b.WF) (v : T) : (b.push v).WF := by
  obtain ⟨hlen, hpos⟩ := h
  refine ⟨by simp [push, hlen], ?_⟩
  have hc : 0 < b.capacity := lt_of_le_of_lt (Nat.zero_le _) hpos
  simpa [push] using Nat.mod_lt _ hc

theorem capacity_push (b : RingBuffer T) (v : T) : (b.push v).capacity = b.capacity := rfl

theorem wf_pushAll {b : RingBuffer T} (h : b.WF) (vs : List T) : (b.pushAll vs).WF := by
  induction vs generalizing b with
  | nil => exact h
  | cons v tl ih => exact ih (wf_push h v)

theorem capacity_pushAll (b : RingBuffer T) (vs : List T) :
    (b.pushAll vs).capacity = b.capacity := by
  induction vs generalizing b with
  | nil => rfl
  | cons v tl ih => simpa [pushAll, capacity_push] using ih (b.push v)

end RingBuffer

namespace RingBuffer

variable {T : Type} [Inhabited T]

theorem index_push {b : RingBuffer T} (h : b.WF) (v : T) {i : Nat} (hi : i < b.capacity) :
    (b.push v).index i = if i = b.capacity - 1 then v else b.index (i + 1) := by
  obtain ⟨hlen, hpos⟩ := h
  have hc : 0 < b.capacity := lt_of_le_of_lt (Nat.zero_le _) hpos
  have hphys : (i + (b.current_pos + 1) % b.capacity) % b.capacity
      = (i + 1 + b.current_pos) % b.capacity := by
    conv_lhs => rw [Nat.add_mod, Nat.mod_mod_of_dvd _ dvd_rfl, ← Nat.add_mod]
    ring_nf
  by_cases hlast : i = b.capacity - 1
  · subst hlast
    have : (b.capacity - 1 + 1 + b.current_pos) % b.capacity = b.current_pos := by
      have h1 : b.capacity - 1 + 1 = b.capacity := Nat.succ_pred_eq_of_pos hc
      rw [h1, Nat.add_mod_left, Nat.mod_eq_of_lt hpos]
    simp only [index, push, hphys, this, List.getD_eq_getElem?_getD]
    rw [List.getElem?_set_self (by omega)]
    rfl
  · have hne : b.current_pos ≠ (i + 1 + b.current_pos) % b.capacity := by
      intro hcontra
      have hi1 : i + 1 < b.capacity := by omega
      rcases Nat.lt_or_ge (i + 1 + b.current_pos) b.capacity with hlt | hge
      · rw [Nat.mod_eq_of_lt hlt] at hcontra; omega
      · have h2 : i + 1 + b.current_pos - b.capacity < b.capacity := by omega
        rw [Nat.mod_eq_sub_mod hge, Nat.mod_eq_of_lt h2] at hcontra
        omega
    simp only [index, push, hphys, hlast, if_false, List.getD_eq_getElem?_getD]
    rw [List.getElem?_set_ne hne]

theorem index_pushAll {b : RingBuffer T} (h : b.WF) {vs : List T}
    (hlen : vs.length ≤ b.capacity) {i : Nat} (hi : i < b.capacity) :
    (b.pushAll vs).index i =
      if i + vs.length < b.capacity then b.index (i + vs.length)
      else vs.getD (i + vs.length - b.capacity) default := by
  induction vs generalizing b with
  | nil => simp [pushAll, Nat.lt_of_lt_of_le hi (le_refl _), hi]
  | cons v tl ih =>
    have hstep : b.pushAll (v :: tl) = (b.push v).pushAll tl := rfl
    rw [hstep, ih (wf_push h v) (by simpa [capacity_push] using Nat.le_of_succ_le hlen)
      (by simpa [capacity_push] using hi)]
    simp only [capacity_push, List.length_cons]
    by_cases hfit : i + (tl.length + 1) < b.capacity
    · have h1 : i + tl.length < b.capacity := by omega
      have h2 : i + tl.length ≠ b.capacity - 1 := by omega
      simp only [if_pos hfit, if_pos h1, index_push h v h1, if_neg h2]
      congr 1
    · by_cases hedge : i + tl.length < b.capacity
      · have h3 : i + tl.length = b.capacity - 1 := by omega
        simp only [if_pos hedge, if_neg hfit, index_push h v hedge, if_pos h3]
        have h4 : i + (tl.length + 1) - b.capacity = 0 := by omega
        rw [h4]
        rfl
      · simp only [if_neg hedge, if_neg hfit]
        have h5 : i + tl.length - b.capacity + 1 = i + (tl.length + 1) - b.capacity := by omega
        rw [← h5]
        rfl

theorem pushAll_append (b : RingBuffer T) (l1 l2 : List T) :
    b.pushAll (l1 ++ l2) = (b.pushAll l1).pushAll l2 :=
  List.foldl_append ..

end RingBuffer

/-- Claim C2: in a circular buffer of capacity C > 0 (well-formed, as
`new` creates it), after pushing a sequence of at least C values, the
unsigned read at relative index i < C yields the (m − C + i)-th pushed
value (0-based), so index 0 is the oldest live sample and index C − 1
the most recent. -/
theorem ring_buffer_age_indexing {T : Type} [Inhabited T] (b : RingBuffer T)
    (h : b.WF) (vs : List T) (hm : b.capacity ≤ vs.length) {i : Nat}
    (hi : i < b.capacity) :
    (b.pushAll vs).index i = vs.getD (vs.length - b.capacity + i) default := by
  have hsplit : b.pushAll vs
      = (b.pushAll (vs.take (vs.length - b.capacity))).pushAll
          (vs.drop (vs.length - b.capacity)) := by
    rw [← RingBuffer.pushAll_append, List.take_append_drop]
  rw [hsplit]
  set b1 := b.pushAll (vs.take (vs.length - b.capacity)) with hb1
  have hwf1 : b1.WF := RingBuffer.wf_pushAll h _
  have hcap1 : b1.capacity = b.capacity := RingBuffer.capacity_pushAll ..
  have hdlen : (vs.drop (vs.length - b.capacity)).length = b.capacity := by
    simp [List.length_drop]
    omega
  rw [RingBuffer.index_pushAll hwf1 (by rw [hdlen, hcap1]) (by rw [hcap1]; exact hi)]
  rw [hdlen, hcap1]
  have hnofit : ¬ i + b.capacity < b.capacity := by omega
  rw [if_neg hnofit]
  simp only [List.getD_eq_getElem?_getD, List.getElem?_drop]
  congr 2
  omega

theorem foldl_range_const {α : Type} (f : α → α) (b : α) (n : Nat) :
    (List.range n).foldl (fun acc _ => f acc) b = f^[n] b := by
  induction n with
  | zero => rfl
  | succ n ih =>
    rw [List.range_succ, List.foldl_append, ih, Function.iterate_succ_apply']
    rfl

/-- Claim C7: `extend_defaults n` fails exactly when `n` exceeds the
capacity; on failure the buffer is untouched, and on success the result
is the n-fold push of the default value. -/
theorem extend_defaults_spec {T : Type} [Inhabited T] (b : RingBuffer T) (n : Nat) :
    ((b.extend_defaults n).1 = false ↔ b.capacity < n) ∧
      (b.capacity < n → b.extend_defaults n = (false, b)) ∧
      (n ≤ b.capacity →
        (b.extend_defaults n).1 = true ∧
          (b.extend_defaults n).2 = (fun acc => acc.push default)^[n] b) := by
  unfold RingBuffer.extend_defaults
  by_cases hlt : b.capacity < n
  · simp [hlt]
  · simp [hlt, foldl_range_const]

/-- Claim C7 witness: at capacity 2, requesting 3 defaults fails and
leaves the buffer unchanged; requesting 2 succeeds and equals two pushes
of the default value. -/
theorem extend_defaults_spec_witness :
    ((RingBuffer.new (T := ℚ) 2).pushAll [7, 8]).extend_defaults 3
        = (false, (RingBuffer.new (T := ℚ) 2).pushAll [7, 8]) ∧
      (((RingBuffer.new (T := ℚ) 2).pushAll [7, 8]).extend_defaults 2).2
        = (fun acc => acc.push default)^[2] ((RingBuffer.new (T := ℚ) 2).pushAll [7, 8]) :=
  ⟨(extend_defaults_spec ((RingBuffer.new 2).pushAll [7, 8]) 3).2.1 (by decide),
   ((extend_defaults_spec ((RingBuffer.new 2).pushAll [7, 8]) 2).2.2 (by decide)).2⟩

theorem neg_tmod_eq (a b : Int) : Int.tmod (-a) b = -Int.tmod a b := by
  rw [Int.tmod_def, Int.tmod_def, Int.neg_tdiv]
  ring

theorem tmod_shift_eq_emod (i C : Int) (hC : 0 < C) :
    (if Int.tmod i C < 0 then Int.tmod i C + C else Int.tmod i C) = i % C := by
  have hCne : C ≠ 0 := by omega
  have hlow : 0 ≤ i % C := Int.emod_nonneg i hCne
  have hhigh : i % C < C := Int.emod_lt_of_pos i hC
  have key : Int.tmod i C = i % C ∨ (Int.tmod i C = i % C - C ∧ i % C ≠ 0) := by
    rcases Int.le_or_lt 0 i with hi | hi
    · exact Or.inl (Int.tmod_eq_emod hi (Int.le_of_lt hC))
    · have hr0 : 0 ≤ (-i) % C := Int.emod_nonneg _ hCne
      have hr1 : (-i) % C < C := Int.emod_lt_of_pos _ hC
      have htm : Int.tmod i C = -((-i) % C) := by
        conv_lhs => rw [show i = -(-i) by ring]
        rw [neg_tmod_eq, Int.tmod_eq_emod (by omega) (Int.le_of_lt hC)]
      have hstep : i % C = (-((-i) % C)) % C := by
        have hdec : i = -((-i) % C) + C * (-((-i) / C)) := by
          have h := Int.emod_add_ediv (-i) C
          linear_combination h
        conv_lhs => rw [hdec]
        rw [Int.add_mul_emod_self_left]
      by_cases hz : (-i) % C = 0
      · left
        rw [htm, hz, hstep, hz]
        simp
      · right
        have hval : i % C = C - (-i) % C := by
          rw [hstep, Int.neg_emod, Int.emod_eq_of_lt (by omega) (by omega)]
        constructor
        · rw [htm, hval]
          ring
        · rw [hval]
          omega
  rcases key with hk | ⟨hk, hne⟩
  · rw [hk, if_neg (by omega)]
  · rw [hk, if_pos (by omega)]
    ring

/-- Claim C8: signed indexing at any integer offset reads the same slot
as unsigned indexing at the normalization `((i mod C) + C) mod C` into
`[0, C)`. -/
theorem index_isize_normalizes {T : Type} [Inhabited T] (b : RingBuffer T) (i : Int)
    (hc : 0 < b.capacity) :
    b.indexSigned i
      = b.index ((i % (b.capacity : Int) + (b.capacity : Int)) % (b.capacity : Int)).toNat := by
  unfold RingBuffer.indexSigned
  have hC : (0 : Int) < (b.capacity : Int) := by exact_mod_cast hc
  have hres : (i % (b.capacity : Int) + (b.capacity : Int)) % (b.capacity : Int)
      = i % (b.capacity : Int) := by
    conv_lhs =>
      rw [show i % (b.capacity : Int) + (b.capacity : Int)
            = i % (b.capacity : Int) + (b.capacity : Int) * 1 by ring]
    rw [Int.add_mul_emod_self_left, Int.emod_emod_of_dvd i dvd_rfl]
  rw [hres, ← tmod_shift_eq_emod i (b.capacity : Int) hC]

/-- Claim C8 witness: capacity 3, signed index −4 reads the same slot as
unsigned index 2. -/
theorem index_isize_normalizes_witness :
    0 < ((RingBuffer.new (T := ℚ) 3).pushAll [1, 2, 3]).capacity ∧
      ((RingBuffer.new (T := ℚ) 3).pushAll [1, 2, 3]).indexSigned (-4)
        = ((RingBuffer.new (T := ℚ) 3).pushAll [1, 2, 3]).index
            (((-4 : Int) % (3 : Int) + 3) % 3).toNat :=
  ⟨by decide, index_isize_normalizes _ (-4) (by decide)⟩

/-- Claim C9 counterexample: `RingBuffer::new` permits capacity 0, and
there both `push` and the unsigned read panic (index out of bounds and
remainder by zero), refuting that they have no failure mode for every
permitted capacity. -/
theorem push_index_zero_capacity_cex :
    (RingBuffer.new (T := ℚ) 0).push? 0 = none ∧
      (RingBuffer.new (T := ℚ) 0).index? 0 = none := by
  decide

/-- Claim C9 amended: on every well-formed buffer of positive capacity
(the shape `new` establishes for positive capacity and `push`
preserves), `push` and unsigned reads always succeed. -/
theorem push_index_never_fail {T : Type} [Inhabited T] (b : RingBuffer T)
    (h : b.WF) (v : T) (i : Nat) :
    b.push? v = some (b.push v) ∧ b.index? i = some (b.index i) := by
  obtain ⟨hlen, hpos⟩ := h
  have hc : 0 < b.capacity := lt_of_le_of_lt (Nat.zero_le _) hpos
  constructor
  · unfold RingBuffer.push?
    rw [if_pos ⟨by omega, by omega⟩]
  · unfold RingBuffer.index? RingBuffer.index
    rw [if_neg (by omega)]
    have hidx : (i + b.current_pos) % b.capacity < b.buffer.length := by
      rw [hlen]; exact Nat.mod_lt _ hc
    rw [List.getD_eq_getElem?_getD, List.get?_eq_getElem?, List.getElem?_eq_getElem hidx]
    simp

/-- Claim C9 witness: a freshly created capacity-1 buffer accepts a push
and serves a wrapped read. -/
theorem push_index_never_fail_witness :
    (RingBuffer.new (T := ℚ) 1).WF ∧
      ((RingBuffer.new (T := ℚ) 1).push? 3 = some ((RingBuffer.new (T := ℚ) 1).push 3) ∧
        (RingBuffer.new (T := ℚ) 1).index? 5 = some ((RingBuffer.new (T := ℚ) 1).index 5)) :=
  ⟨by decide, push_index_never_fail _ (by decide) 3 5⟩

/-- Claim C2 witness: capacity 2, pushes [10, 20, 30], index 0 reads the
oldest live value 20 and index 1 the newest 30. -/
theorem ring_buffer_age_indexing_witness :
    (RingBuffer.new (T := ℚ) 2).WF ∧
      ((RingBuffer.new (T := ℚ) 2).pushAll [10, 20, 30]).index 1
        = [(10 : ℚ), 20, 30].getD ([(10 : ℚ), 20, 30].length - 2 + 1) default :=
  ⟨by decide, ring_buffer_age_indexing _ (by decide) [10, 20, 30] (by decide) (by decide)⟩

/-! ## Phase-vocoder engine state and remap installation
(`src/phase_vocoder.rs`) -/

/-- Embeds `const OVERLAP_RATIO: usize = 4`. -/
def OVERLAP_RATIO : Nat := 4

/-- Embeds `struct InputParams` with its `f32` fields as rationals. -/
structure InputParams where
  daw_values : ℚ × ℚ × ℚ × ℚ
  current_track_id : Nat
  bpm : ℚ
  daw_time : ℚ
  sys_time : ℚ
  window_size : Nat
  window_factor : ℚ
  window_offset : Nat
  gain : ℚ
  sample_rate : ℚ
  deriving Repr, DecidableEq

/-- Embeds `#[derive(Default)] InputParams`: every field zero. -/
def InputParams.default : InputParams :=
  ⟨(0, 0, 0, 0), 0, 0, 0, 0, 0, 0, 0, 0, 0⟩

/-- Oracle for the external `rhai` crate and the `std` hasher used by
`phase_vocoder.rs`: `hash_one` is `HASHER.hash_one`, `compile` is
`RHAI_ENGINE.compile` with its error already formatted to a string, and
`run_ast` is `run_ast_with_scope` on a scope holding the pushed
parameters, returning the final scope entries for `frequency` and
`magnitude` (`none` when the script removed them). `α` is the `AST`
type. -/
structure RhaiEnv (α : Type) where
  hash_one : String → Nat
  compile : String → Except String α
  run_ast : α → InputParams → ℚ → ℚ → Except String (Option ℚ × Option ℚ)

/-- Embeds `struct PhaseVocoder` (the `fft`/`ifft` plan handles are
omitted: they are opaque external objects fully determined by
`window_size`). -/
structure PhaseVocoder (α : Type) where
  sample_rate : ℚ
  window_size : Nat
  frame_hop : Nat
  input_buffer : RingBuffer ℚ
  output_buffer : RingBuffer ℚ
  prev_analysis_phase : List ℚ
  bin_frequencies : List ℚ
  temp_buffer : List (ℚ × ℚ)
  output_temp_buffer : List (ℚ × ℚ)
  input_count : Nat
  output_count : Nat
  map_ast : Option α
  hash : Nat
  deriving DecidableEq

/-- Doubling loop for `next_power_of_two`; the fuel argument only bounds
the recursion and `n` steps always suffice since the candidate doubles
each step. -/
def next_power_of_two_go (n : Nat) : Nat → Nat → Nat
  | 0, p => p
  | fuel + 1, p => if p < n then next_power_of_two_go n fuel (2 * p) else p

/-- Embeds `usize::next_power_of_two`: the least power of two that is
not below `n` (1 for `n ≤ 1`). -/
def next_power_of_two (n : Nat) : Nat := next_power_of_two_go n n 1

namespace PhaseVocoder

variable {α : Type}

/-- Embeds `PhaseVocoder::new(window_size, sample_rate)`. -/
def new (env : RhaiEnv α) (window_size : Nat) (sample_rate : ℚ) : PhaseVocoder α :=
  let ws := max (next_power_of_two window_size) OVERLAP_RATIO
  { sample_rate := sample_rate
    window_size := ws
    frame_hop := ws / OVERLAP_RATIO
    input_buffer := RingBuffer.new ws
    output_buffer := RingBuffer.new ws
    prev_analysis_phase := List.replicate ws 0
    bin_frequencies := (List.range ws).map (fun k : Nat => (k : ℚ) * sample_rate / (ws : ℚ))
    temp_buffer := List.replicate ws (0, 0)
    output_temp_buffer := List.replicate ws (0, 0)
    input_count := 0
    output_count := 0
    map_ast := none
    hash := env.hash_one "" }

/-- Embeds `PhaseVocoder::clear_mapper`. -/
def clear_mapper (s : PhaseVocoder α) : PhaseVocoder α :=
  { s with map_ast := none }

/-- Embeds `PhaseVocoder::frequency_mapper`: identity when no mapping is
installed, otherwise run the AST and read back `frequency`/`magnitude`,
each falling back to its input value (`unwrap_or`). -/
def frequency_mapper (env : RhaiEnv α) (s : PhaseVocoder α) (params : InputParams)
    (frequency magnitude : ℚ) : Except String (ℚ × ℚ) :=
  match s.map_ast with
  | none => .ok (frequency, magnitude)
  | some ast =>
    match env.run_ast ast params frequency magnitude with
    | .error e => .error e
    | .ok (of, om) => .ok (of.getD frequency, om.getD magnitude)

/-- Embeds `PhaseVocoder::update_mapping`: empty text clears the mapping
and resets the hash to the hash of the empty string; a hash match is a
silent no-op; otherwise compile, tentatively install, validate with one
neutral call (default parameters, zero frequency and magnitude), roll
back on a validation fault, and commit the hash only on success. -/
def update_mapping (env : RhaiEnv α) (s : PhaseVocoder α) (code : String) :
    Except String Unit × PhaseVocoder α :=
  if code = "" then (.ok (), { s.clear_mapper with hash := env.hash_one "" })
  else
    let hash := env.hash_one code
    if hash = s.hash then (.ok (), s)
    else
      match env.compile code with
      | .error e => (.error e, s)
      | .ok ast =>
        let ori := s.map_ast
        let s1 := { s with map_ast := some ast }
        match frequency_mapper env s1 InputParams.default 0 0 with
        | .error e => (.error e, { s1 with map_ast := ori })
        | .ok _ => (.ok (), { s1 with hash := hash })

/-- Embeds `PhaseVocoder::renew_window_size`. -/
def renew_window_size (s : PhaseVocoder α) (window_size : Nat) :
    Option Nat × PhaseVocoder α :=
  let ws := max (next_power_of_two window_size) OVERLAP_RATIO
  if ws = s.window_size then (none, s)
  else
    (some ws,
      { s with
        window_size := ws
        frame_hop := ws / OVERLAP_RATIO
        input_buffer := RingBuffer.new ws
        output_buffer := RingBuffer.new ws
        bin_frequencies := (List.range ws).map
          (fun k : Nat => (k : ℚ) * s.sample_rate / (ws : ℚ))
        prev_analysis_phase := List.replicate ws 0
        temp_buffer := List.replicate ws (0, 0)
        output_temp_buffer := List.replicate ws (0, 0)
        input_count := 0
        output_count := 0 })

/-- Embeds `PhaseVocoder::renew_sample_rate`. -/
def renew_sample_rate (s : PhaseVocoder α) (sample_rate : ℚ) : PhaseVocoder α :=
  if s.sample_rate = sample_rate then s
  else
    { s with
      sample_rate := sample_rate
      bin_frequencies := (List.range s.window_size).map
        (fun k : Nat => (k : ℚ) * sample_rate / (s.window_size : ℚ)) }

end PhaseVocoder

theorem getD_map_range (n k : Nat) (f : Nat → ℚ) (hk : k < n) :
    ((List.range n).map f).getD k 0 = f k := by
  rw [List.getD_eq_getElem?_getD, List.getElem?_map, List.getElem?_range hk]
  rfl

/-- A concrete scripting oracle for witnesses and counterexamples:
hashing by string length, every text compiles, every run faults. -/
def envCex : RhaiEnv Unit :=
  { hash_one := String.length
    compile := fun _ => .ok ()
    run_ast := fun _ _ _ _ => .error "runtime fault" }

/-- A concrete engine fixture: window 4, sample rate 48000, no mapping,
cached hash 0 (the length hash of the empty string). -/
def pvUnit : PhaseVocoder Unit :=
  { sample_rate := 48000
    window_size := 4
    frame_hop := 1
    input_buffer := RingBuffer.new 4
    output_buffer := RingBuffer.new 4
    prev_analysis_phase := [0, 0, 0, 0]
    bin_frequencies := [0, 12000, 24000, 36000]
    temp_buffer := List.replicate 4 (0, 0)
    output_temp_buffer := List.replicate 4 (0, 0)
    input_count := 0
    output_count := 0
    map_ast := none
    hash := 0 }

/-- `pvUnit` with the cached hash set to the hash of `"x"`. -/
def sCex : PhaseVocoder Unit := { pvUnit with hash := 1 }

/-- `pvUnit` holding an installed mapping whose source text hashed to
1. -/
def sHeld : PhaseVocoder Unit := { pvUnit with map_ast := some (), hash := 1 }

/-- Claim C1 counterexample: the text `"x"` compiles and its neutral
validation call faults, yet on an engine whose cached content hash
already equals the hash of `"x"`, `update_mapping` returns `Ok` instead
of an error — the content-hash cache short-circuits before compilation
and validation ever run. -/
theorem update_mapping_rollback_cex :
    envCex.compile "x" = .ok () ∧
      PhaseVocoder.frequency_mapper envCex { sCex with map_ast := some () }
          InputParams.default 0 0 = .error "runtime fault" ∧
      PhaseVocoder.update_mapping envCex sCex "x" = (.ok (), sCex) :=
  ⟨rfl, rfl, rfl⟩

/-- Claim C1 (amended): for every engine state and every non-empty
mapping text whose content hash differs from the cached hash: if the
text compiles but the neutral validation call (default parameters, zero
frequency, zero magnitude) faults, `update_mapping` returns that error
and leaves the engine state (in particular `map_ast` and `hash`)
exactly as before; if the text fails to compile, `update_mapping`
returns the compile diagnostic and leaves the state unchanged. -/
theorem update_mapping_rollback {α : Type} (env : RhaiEnv α) (s : PhaseVocoder α)
    (code : String) (hne : code ≠ "") (hh : env.hash_one code ≠ s.hash) :
    (∀ ast e, env.compile code = .ok ast →
        env.run_ast ast InputParams.default 0 0 = .error e →
        PhaseVocoder.update_mapping env s code = (.error e, s)) ∧
      (∀ e, env.compile code = .error e →
        PhaseVocoder.update_mapping env s code = (.error e, s)) := by
  constructor
  · intro ast e hc hr
    simp only [PhaseVocoder.update_mapping, if_neg hne, if_neg hh, hc,
      PhaseVocoder.frequency_mapper, hr]
  · intro e hc
    simp only [PhaseVocoder.update_mapping, if_neg hne, if_neg hh, hc]

/-- Claim C1 witness: on `pvUnit` (cached hash 0), installing `"x"`
(hash 1, compiles, validation faults) returns the fault and leaves the
engine untouched. -/
theorem update_mapping_rollback_witness :
    ("x" ≠ "" ∧ envCex.hash_one "x" ≠ pvUnit.hash) ∧
      PhaseVocoder.update_mapping envCex pvUnit "x" = (.error "runtime fault", pvUnit) :=
  ⟨⟨by decide, by decide⟩,
    (update_mapping_rollback envCex pvUnit "x" (by decide) (by decide)).1 ()
      "runtime fault" rfl rfl⟩

/-- Claim C6: `clear_mapper` removes the compiled mapping but leaves the
cached content hash; reinstalling the identical non-empty text on the
cleared engine is accepted as a silent no-op (the hash still matches the
cache), so the engine still holds no mapping afterwards. -/
theorem clear_then_update_same_text {α : Type} (env : RhaiEnv α) (s : PhaseVocoder α)
    (code : String) (hne : code ≠ "") (hheld : s.map_ast ≠ none)
    (hcur : s.hash = env.hash_one code) :
    (s.clear_mapper.map_ast = none ∧ s.clear_mapper.hash = s.hash) ∧
      PhaseVocoder.update_mapping env s.clear_mapper code = (.ok (), s.clear_mapper) := by
  refine ⟨⟨rfl, rfl⟩, ?_⟩
  simp only [PhaseVocoder.update_mapping, if_neg hne]
  rw [if_pos (show env.hash_one code = s.clear_mapper.hash from hcur.symm)]

/-- Claim C6 witness: `sHeld` holds a mapping for text `"x"`; clearing
and reinstalling `"x"` succeeds while leaving the mapping absent. -/
theorem clear_then_update_same_text_witness :
    ("x" ≠ "" ∧ sHeld.map_ast ≠ none ∧ sHeld.hash = envCex.hash_one "x") ∧
      ((sHeld.clear_mapper.map_ast = none ∧ sHeld.clear_mapper.hash = sHeld.hash) ∧
        PhaseVocoder.update_mapping envCex sHeld.clear_mapper "x"
          = (.ok (), sHeld.clear_mapper)) :=
  ⟨⟨by decide, by decide, by decide⟩,
    clear_then_update_same_text envCex sHeld "x" (by decide) (by decide) (by decide)⟩

/-- Claim C5: `renew_window_size` normalizes the request to
`max(next_power_of_two(s), 4)`; an unchanged size is a no-op returning
`none`; otherwise it returns the new size, sets `frame_hop` to exactly a
quarter of it, installs fresh zero-filled circular buffers of the new
size with cursor 0, rebuilds the bin-frequency table, zeroes the
phase-history table, and resets both hop counters. -/
theorem renew_window_size_spec {α : Type} (s : PhaseVocoder α) (ws : Nat) :
    (max (next_power_of_two ws) 4 = s.window_size →
        s.renew_window_size ws = (none, s)) ∧
      (max (next_power_of_two ws) 4 ≠ s.window_size →
        ((s.renew_window_size ws).1 = some (max (next_power_of_two ws) 4) ∧
          (s.renew_window_size ws).2.window_size = max (next_power_of_two ws) 4 ∧
          (s.renew_window_size ws).2.frame_hop = max (next_power_of_two ws) 4 / 4 ∧
          (s.renew_window_size ws).2.input_buffer.capacity
            = max (next_power_of_two ws) 4 ∧
          (s.renew_window_size ws).2.input_buffer.buffer
            = List.replicate (max (next_power_of_two ws) 4) 0 ∧
          (s.renew_window_size ws).2.input_buffer.current_pos = 0 ∧
          (s.renew_window_size ws).2.output_buffer.capacity
            = max (next_power_of_two ws) 4 ∧
          (s.renew_window_size ws).2.output_buffer.buffer
            = List.replicate (max (next_power_of_two ws) 4) 0 ∧
          (s.renew_window_size ws).2.output_buffer.current_pos = 0 ∧
          (∀ k, k < max (next_power_of_two ws) 4 →
            (s.renew_window_size ws).2.bin_frequencies.getD k 0
              = (k : ℚ) * s.sample_rate / ((max (next_power_of_two ws) 4 : Nat) : ℚ)) ∧
          (s.renew_window_size ws).2.prev_analysis_phase
            = List.replicate (max (next_power_of_two ws) 4) 0 ∧
          (s.renew_window_size ws).2.input_count = 0 ∧
          (s.renew_window_size ws).2.output_count = 0)) := by
  constructor
  · intro h
    simp only [PhaseVocoder.renew_window_size, OVERLAP_RATIO]
    rw [if_pos h]
  · intro h
    simp only [PhaseVocoder.renew_window_size, OVERLAP_RATIO]
    rw [if_neg h]
    refine ⟨rfl, rfl, rfl, rfl, rfl, rfl, rfl, rfl, rfl, ?_, rfl, rfl, rfl⟩
    intro k hk
    exact getD_map_range _ k _ hk

/-- Claim C5 witness: on `pvUnit` (window 4), requesting 3 normalizes to
4 and is a no-op; requesting 8 reconfigures with hop 2 and cleared
counters. -/
theorem renew_window_size_spec_witness :
    (max (next_power_of_two 3) 4 = pvUnit.window_size ∧
        pvUnit.renew_window_size 3 = (none, pvUnit)) ∧
      (max (next_power_of_two 8) 4 ≠ pvUnit.window_size ∧
        (pvUnit.renew_window_size 8).1 = some (max (next_power_of_two 8) 4) ∧
        (pvUnit.renew_window_size 8).2.frame_hop = max (next_power_of_two 8) 4 / 4 ∧
        (pvUnit.renew_window_size 8).2.input_count = 0) :=
  ⟨⟨by decide, (renew_window_size_spec pvUnit 3).1 (by decide)⟩,
    by
      have h := (renew_window_size_spec pvUnit 8).2 (by decide)
      exact ⟨by decide, h.1, h.2.2.1, h.2.2.2.2.2.2.2.2.2.2.2.1⟩⟩

/-- Claim C10: `renew_sample_rate` is a no-op at an unchanged rate;
otherwise it updates the stored rate and rebuilds the bin-frequency
table to `k * rate / window_size`, leaving every other engine field
(window, hop, buffers, phase history, counters, mapping, hash)
unchanged. -/
theorem renew_sample_rate_spec {α : Type} (s : PhaseVocoder α) (r : ℚ) :
    (s.sample_rate = r → s.renew_sample_rate r = s) ∧
      (s.sample_rate ≠ r →
        ((s.renew_sample_rate r).sample_rate = r ∧
          (∀ k, k < s.window_size →
            (s.renew_sample_rate r).bin_frequencies.getD k 0
              = (k : ℚ) * r / (s.window_size : ℚ)) ∧
          (s.renew_sample_rate r).bin_frequencies.length = s.window_size ∧
          (s.renew_sample_rate r).window_size = s.window_size ∧
          (s.renew_sample_rate r).frame_hop = s.frame_hop ∧
          (s.renew_sample_rate r).input_buffer = s.input_buffer ∧
          (s.renew_sample_rate r).output_buffer = s.output_buffer ∧
          (s.renew_sample_rate r).prev_analysis_phase = s.prev_analysis_phase ∧
          (s.renew_sample_rate r).input_count = s.input_count ∧
          (s.renew_sample_rate r).output_count = s.output_count ∧
          (s.renew_sample_rate r).map_ast = s.map_ast ∧
          (s.renew_sample_rate r).hash = s.hash)) := by
  constructor
  · intro h
    simp only [PhaseVocoder.renew_sample_rate]
    rw [if_pos h]
  · intro h
    simp only [PhaseVocoder.renew_sample_rate]
    rw [if_neg h]
    refine ⟨rfl, ?_, by simp, rfl, rfl, rfl, rfl, rfl, rfl, rfl, rfl, rfl⟩
    intro k hk
    exact getD_map_range _ k _ hk

/-- Claim C10 witness: on `pvUnit` (rate 48000), renewing to 48000 is a
no-op; renewing to 44100 changes only the rate and the bin table (bin 1
of 4 becomes 11025). -/
theorem renew_sample_rate_spec_witness :
    (pvUnit.sample_rate = 48000 ∧ pvUnit.renew_sample_rate 48000 = pvUnit) ∧
      (pvUnit.sample_rate ≠ 44100 ∧
        (pvUnit.renew_sample_rate 44100).sample_rate = 44100 ∧
        (pvUnit.renew_sample_rate 44100).bin_frequencies.getD 1 0
          = (1 : ℚ) * 44100 / (pvUnit.window_size : ℚ) ∧
        (pvUnit.renew_sample_rate 44100).frame_hop = pvUnit.frame_hop) :=
  ⟨⟨by decide, (renew_sample_rate_spec pvUnit 48000).1 (by decide)⟩,
    by
      have h := (renew_sample_rate_spec pvUnit 44100).2 (by decide)
      exact ⟨by decide, h.1, h.2.1 1 (by decide), h.2.2.2.2.1⟩⟩


/-! ## The per-bin remap loop of `process_inner`
(`src/phase_vocoder.rs`) -/

/-- The exact rational value of the `f32` constant
`std::f32::consts::PI`. -/
def PI32 : ℚ := 13176795 / 4194304

/-- Oracle for the external operations the bin loop calls: `norm`,
`arg`, `from_polar` are the `num_complex` functions on complex values
(pairs of rationals), and `mapper center_freq magnitude` is the result
of the already-validated `frequency_mapper` call for this cycle (the
source marks a failing live call `unreachable!`, so the loop is embedded
on its non-panicking path). -/
structure SpectralOps where
  norm : ℚ × ℚ → ℚ
  arg : ℚ × ℚ → ℚ
  from_polar : ℚ → ℚ → ℚ × ℚ
  mapper : ℚ → ℚ → ℚ × ℚ

/-- The engine state threaded through the bin loop of `process_inner`:
the synthesis scratch spectrum and the phase-history table. -/
structure BinLoopState where
  output_temp_buffer : List (ℚ × ℚ)
  prev_analysis_phase : List ℚ
  deriving Repr, DecidableEq

/-- Componentwise complex addition (`num_complex` `+`). -/
def cadd (x y : ℚ × ℚ) : ℚ × ℚ := (x.1 + y.1, x.2 + y.2)

/-- Real scalar times a complex value (`num_complex` scalar `*`). -/
def csmul (r : ℚ) (x : ℚ × ℚ) : ℚ × ℚ := (r * x.1, r * x.2)

/-- Embeds one iteration of the bin loop of `process_inner` at bin `k`:
bin 0 is copied unmodified; a remapped frequency that is negative or at
least `sample_rate / 2` contributes nothing and leaves the phase entry
alone; otherwise the phase-accumulated contribution is split between
bins `⌊idx⌋` and `⌊idx⌋ + 1` by linear interpolation and the phase entry
is overwritten with the raw analysis phase.  `spec` is `temp_buffer`
after the forward FFT.  On this path `new_idx ≥ 0`, so the `f32`
`floor`/`fract`/`as usize` chain coincides with the rational floor. -/
def binStep (ops : SpectralOps) (sample_rate : ℚ) (window_size frame_hop : Nat)
    (bin_frequencies : List ℚ) (spec : List (ℚ × ℚ)) (s : BinLoopState) (k : Nat) :
    BinLoopState :=
  if k = 0 then
    { s with output_temp_buffer := s.output_temp_buffer.set 0 (spec.getD 0 (0, 0)) }
  else
    let value := spec.getD k (0, 0)
    let magnitude := ops.norm value
    let bin_center_freq := bin_frequencies.getD k 0
    let fm := ops.mapper bin_center_freq magnitude
    if fm.1 < 0 ∨ sample_rate / 2 ≤ fm.1 then s
    else
      let new_phase := s.prev_analysis_phase.getD k 0
        + 2 * PI32 * bin_center_freq * (frame_hop : ℚ) / sample_rate
      let prev1 := s.prev_analysis_phase.set k (ops.arg value)
      let new_idx := fm.1 / sample_rate * (window_size : ℚ)
      let ratio := new_idx - ((⌊new_idx⌋ : Int) : ℚ)
      let k_low := (⌊new_idx⌋).toNat
      let contrib := ops.from_polar fm.2 new_phase
      let out1 := if k_low ≤ window_size / 2 then
          s.output_temp_buffer.set k_low
            (cadd (s.output_temp_buffer.getD k_low (0, 0)) (csmul (1 - ratio) contrib))
        else s.output_temp_buffer
      let out2 := if k_low < window_size / 2 then
          out1.set (k_low + 1) (cadd (out1.getD (k_low + 1) (0, 0)) (csmul ratio contrib))
        else out1
      { output_temp_buffer := out2, prev_analysis_phase := prev1 }

/-- Embeds the whole loop
`for (k, value) in self.temp_buffer.iter().enumerate().take(self.window_size / 2 + 1)`. -/
def processBins (ops : SpectralOps) (sample_rate : ℚ) (window_size frame_hop : Nat)
    (bin_frequencies : List ℚ) (spec : List (ℚ × ℚ)) (s : BinLoopState) : BinLoopState :=
  (List.range (window_size / 2 + 1)).foldl
    (binStep ops sample_rate window_size frame_hop bin_frequencies spec) s

theorem getD_set_self_of_lt {β : Type} (l : List β) (i : Nat) (v d : β)
    (h : i < l.length) : (l.set i v).getD i d = v := by
  rw [List.getD_eq_getElem?_getD, List.getElem?_set_self h]
  rfl

theorem getD_set_ne_gen {β : Type} (l : List β) (i j : Nat) (v d : β) (h : i ≠ j) :
    (l.set i v).getD j d = l.getD j d := by
  rw [List.getD_eq_getElem?_getD, List.getElem?_set_ne h, ← List.getD_eq_getElem?_getD]

theorem binStep_rejected (ops : SpectralOps) (sr : ℚ) (N H : Nat) (bf : List ℚ)
    (spec : List (ℚ × ℚ)) (s : BinLoopState) (k : Nat) (hk : k ≠ 0)
    (hrej : (ops.mapper (bf.getD k 0) (ops.norm (spec.getD k (0, 0)))).1 < 0
      ∨ sr / 2 ≤ (ops.mapper (bf.getD k 0) (ops.norm (spec.getD k (0, 0)))).1) :
    binStep ops sr N H bf spec s k = s := by
  simp only [binStep, if_neg hk]
  rw [if_pos hrej]

theorem foldl_filter_ne {β γ : Type} [DecidableEq γ] (f : β → γ → β) (k : γ)
    (hid : ∀ s, f s k = s) :
    ∀ (l : List γ) (s : β), l.foldl f s = (l.filter (fun j => j ≠ k)).foldl f s := by
  intro l
  induction l with
  | nil => intro s; rfl
  | cons j tl ih =>
    intro s
    by_cases hj : j = k
    · subst hj
      rw [List.foldl_cons, hid s, List.filter_cons, if_neg (by simp)]
      exact ih s
    · rw [List.foldl_cons, List.filter_cons, if_pos (by simp [hj]), List.foldl_cons]
      exact ih (f s j)

theorem binStep_prev_getD_ne (ops : SpectralOps) (sr : ℚ) (N H : Nat) (bf : List ℚ)
    (spec : List (ℚ × ℚ)) (s : BinLoopState) (j k : Nat) (hjk : j ≠ k) :
    (binStep ops sr N H bf spec s j).prev_analysis_phase.getD k 0
      = s.prev_analysis_phase.getD k 0 := by
  by_cases hj0 : j = 0
  · subst hj0
    simp [binStep]
  · simp only [binStep, if_neg hj0]
    by_cases hrej : (ops.mapper (bf.getD j 0) (ops.norm (spec.getD j (0, 0)))).1 < 0
        ∨ sr / 2 ≤ (ops.mapper (bf.getD j 0) (ops.norm (spec.getD j (0, 0)))).1
    · rw [if_pos hrej]
    · rw [if_neg hrej]
      exact getD_set_ne_gen _ j k _ _ hjk

theorem foldl_bins_prev_getD (ops : SpectralOps) (sr : ℚ) (N H : Nat) (bf : List ℚ)
    (spec : List (ℚ × ℚ)) (l : List Nat) (k : Nat) (hl : ∀ j ∈ l, j ≠ k) :
    ∀ s : BinLoopState,
      (l.foldl (binStep ops sr N H bf spec) s).prev_analysis_phase.getD k 0
        = s.prev_analysis_phase.getD k 0 := by
  induction l with
  | nil => intro s; rfl
  | cons j tl ih =>
    intro s
    rw [List.foldl_cons, ih (fun x hx => hl x (List.mem_cons_of_mem j hx)),
      binStep_prev_getD_ne ops sr N H bf spec s j k (hl j (List.mem_cons_self j tl))]

/-- Claim C3: a bin `k` in `1..N/2` whose remapped frequency is negative
or at least Nyquist (`sample_rate / 2`) contributes nothing to the
output scratch spectrum this cycle — the whole loop result equals the
loop run with bin `k` absent — and its phase-history entry is not
updated. -/
theorem bin_rejection_drops_energy (ops : SpectralOps) (sr : ℚ) (N H : Nat)
    (bf : List ℚ) (spec : List (ℚ × ℚ)) (s : BinLoopState) (k : Nat) (f m : ℚ)
    (hk1 : 1 ≤ k) (hk2 : k ≤ N / 2)
    (hmap : ops.mapper (bf.getD k 0) (ops.norm (spec.getD k (0, 0))) = (f, m))
    (hrej : f < 0 ∨ sr / 2 ≤ f) :
    processBins ops sr N H bf spec s
      = ((List.range (N / 2 + 1)).filter (fun j => j ≠ k)).foldl
          (binStep ops sr N H bf spec) s ∧
      (processBins ops sr N H bf spec s).prev_analysis_phase.getD k 0
        = s.prev_analysis_phase.getD k 0 := by
  have hid : ∀ t, binStep ops sr N H bf spec t k = t := by
    intro t
    refine binStep_rejected ops sr N H bf spec t k (by omega) ?_
    rw [hmap]
    exact hrej
  have hfold := foldl_filter_ne (binStep ops sr N H bf spec) k hid
    (List.range (N / 2 + 1)) s
  constructor
  · exact hfold
  · rw [processBins, hfold]
    refine foldl_bins_prev_getD ops sr N H bf spec _ k ?_ s
    intro j hj
    have := (List.mem_filter.mp hj).2
    simpa using this

/-- Concrete spectral oracle for witnesses: a remap that always returns
the frequency −1, which every cycle rejects. -/
def ops3 : SpectralOps :=
  { norm := Prod.fst
    arg := Prod.snd
    from_polar := fun m p => (m, p)
    mapper := fun f m => (-1, m) }

/-- Concrete bin-frequency table for a window of 4 at sample rate 8. -/
def bf3 : List ℚ := [0, 2, 4, 6]

/-- Concrete post-FFT spectrum for witnesses. -/
def spec3 : List (ℚ × ℚ) := [(1, 1), (1, 1), (1, 1), (1, 1)]

/-- Concrete loop state for witnesses. -/
def s3 : BinLoopState :=
  { output_temp_buffer := List.replicate 4 (0, 0)
    prev_analysis_phase := [5, 6, 7, 8] }

/-- Claim C3 witness: with a mapper returning frequency −1 at bin 1 of a
4-point window, processing the bins leaves the phase entry of bin 1
untouched. -/
theorem bin_rejection_drops_energy_witness :
    (1 ≤ 1 ∧ 1 ≤ 4 / 2 ∧
        ops3.mapper (bf3.getD 1 0) (ops3.norm (spec3.getD 1 (0, 0))) = (-1, 1) ∧
        ((-1 : ℚ) < 0 ∨ (8 : ℚ) / 2 ≤ -1)) ∧
      (processBins ops3 8 4 1 bf3 spec3 s3).prev_analysis_phase.getD 1 0
        = s3.prev_analysis_phase.getD 1 0 :=
  ⟨⟨by decide, by decide, by decide, Or.inl (by decide)⟩,
    (bin_rejection_drops_energy ops3 8 4 1 bf3 spec3 s3 1 (-1) 1 (by decide) (by decide)
      (by decide) (Or.inl (by decide))).2⟩

theorem binStep_out_length (ops : SpectralOps) (sr : ℚ) (N H : Nat) (bf : List ℚ)
    (spec : List (ℚ × ℚ)) (s : BinLoopState) (k : Nat) :
    (binStep ops sr N H bf spec s k).output_temp_buffer.length
      = s.output_temp_buffer.length := by
  simp only [binStep]
  split_ifs <;> simp [List.length_set]

theorem binStep_out_getD_low (ops : SpectralOps) (sr : ℚ) (N H : Nat) (bf : List ℚ)
    (spec : List (ℚ × ℚ)) (s : BinLoopState) (k : Nat) (f m : ℚ) (hk : k ≠ 0)
    (hmap : ops.mapper (bf.getD k 0) (ops.norm (spec.getD k (0, 0))) = (f, m))
    (hacc : ¬(f < 0 ∨ sr / 2 ≤ f))
    (hlen : s.output_temp_buffer.length = N) (hN : 1 ≤ N)
    (hkl : (⌊f / sr * (N : ℚ)⌋).toNat ≤ N / 2) :
    (binStep ops sr N H bf spec s k).output_temp_buffer.getD
        ((⌊f / sr * (N : ℚ)⌋).toNat) (0, 0)
      = cadd (s.output_temp_buffer.getD ((⌊f / sr * (N : ℚ)⌋).toNat) (0, 0))
          (csmul (1 - (f / sr * (N : ℚ) - ((⌊f / sr * (N : ℚ)⌋ : Int) : ℚ)))
            (ops.from_polar m (s.prev_analysis_phase.getD k 0
              + 2 * PI32 * bf.getD k 0 * (H : ℚ) / sr))) := by
  have hN2 : N / 2 < N := Nat.div_lt_self (by omega) (by omega)
  simp only [binStep, if_neg hk, hmap]
  rw [if_neg hacc, if_pos hkl]
  by_cases hlt : (⌊f / sr * (N : ℚ)⌋).toNat < N / 2
  · rw [if_pos hlt, getD_set_ne_gen _ _ _ _ _ (by omega),
      getD_set_self_of_lt _ _ _ _ (by rw [hlen]; omega)]
  · rw [if_neg hlt, getD_set_self_of_lt _ _ _ _ (by rw [hlen]; omega)]

theorem binStep_out_getD_high (ops : SpectralOps) (sr : ℚ) (N H : Nat) (bf : List ℚ)
    (spec : List (ℚ × ℚ)) (s : BinLoopState) (k : Nat) (f m : ℚ) (hk : k ≠ 0)
    (hmap : ops.mapper (bf.getD k 0) (ops.norm (spec.getD k (0, 0))) = (f, m))
    (hacc : ¬(f < 0 ∨ sr / 2 ≤ f))
    (hlen : s.output_temp_buffer.length = N) (hN : 1 ≤ N)
    (hkl : (⌊f / sr * (N : ℚ)⌋).toNat < N / 2) :
    (binStep ops sr N H bf spec s k).output_temp_buffer.getD
        ((⌊f / sr * (N : ℚ)⌋).toNat + 1) (0, 0)
      = cadd (s.output_temp_buffer.getD ((⌊f / sr * (N : ℚ)⌋).toNat + 1) (0, 0))
          (csmul (f / sr * (N : ℚ) - ((⌊f / sr * (N : ℚ)⌋ : Int) : ℚ))
            (ops.from_polar m (s.prev_analysis_phase.getD k 0
              + 2 * PI32 * bf.getD k 0 * (H : ℚ) / sr))) := by
  have hN2 : N / 2 < N := Nat.div_lt_self (by omega) (by omega)
  simp only [binStep, if_neg hk, hmap]
  rw [if_neg hacc, if_pos (Nat.le_of_lt hkl), if_pos hkl]
  rw [getD_set_self_of_lt _ _ _ _ (by rw [List.length_set, hlen]; omega),
    getD_set_ne_gen _ _ _ _ _ (by omega)]

theorem binStep_prev_set (ops : SpectralOps) (sr : ℚ) (N H : Nat) (bf : List ℚ)
    (spec : List (ℚ × ℚ)) (s : BinLoopState) (k : Nat) (f m : ℚ) (hk : k ≠ 0)
    (hmap : ops.mapper (bf.getD k 0) (ops.norm (spec.getD k (0, 0))) = (f, m))
    (hacc : ¬(f < 0 ∨ sr / 2 ≤ f)) :
    (binStep ops sr N H bf spec s k).prev_analysis_phase
      = s.prev_analysis_phase.set k (ops.arg (spec.getD k (0, 0))) := by
  simp only [binStep, if_neg hk, hmap]
  rw [if_neg hacc]

/-- Claim C4: a non-rejected bin `k > 0` with mapped frequency `f` and
magnitude `m` deposits by linear bin interpolation: with
`idx = f / sample_rate * N`, `k_low = ⌊idx⌋`, `ratio = idx − k_low`,
the value `(1 − ratio) · m∠phase` is added to output bin `k_low` when
`k_low ≤ N/2`, `ratio · m∠phase` is added to bin `k_low + 1` when
`k_low < N/2`, the phase entry of `k` is overwritten with the raw
analysis phase, and deposits accumulate: a second source bin remapped to
the same continuous index sums at the shared target bin instead of
overwriting it. -/
theorem bin_interpolation_accumulates (ops : SpectralOps) (sr : ℚ) (N H : Nat)
    (bf : List ℚ) (spec : List (ℚ × ℚ)) (s : BinLoopState) (k : Nat)
    (f m idx ratio phase : ℚ) (contrib : ℚ × ℚ) (k_low : Nat)
    (hk1 : 1 ≤ k)
    (hmap : ops.mapper (bf.getD k 0) (ops.norm (spec.getD k (0, 0))) = (f, m))
    (hacc : ¬(f < 0 ∨ sr / 2 ≤ f))
    (hlen : s.output_temp_buffer.length = N) (hN : 1 ≤ N)
    (hidx : idx = f / sr * (N : ℚ)) (hklow : k_low = (⌊idx⌋).toNat)
    (hratio : ratio = idx - ((⌊idx⌋ : Int) : ℚ))
    (hphase : phase = s.prev_analysis_phase.getD k 0
      + 2 * PI32 * bf.getD k 0 * (H : ℚ) / sr)
    (hcontrib : contrib = ops.from_polar m phase) :
    (k_low ≤ N / 2 →
        (binStep ops sr N H bf spec s k).output_temp_buffer.getD k_low (0, 0)
          = cadd (s.output_temp_buffer.getD k_low (0, 0)) (csmul (1 - ratio) contrib)) ∧
      (k_low < N / 2 →
        (binStep ops sr N H bf spec s k).output_temp_buffer.getD (k_low + 1) (0, 0)
          = cadd (s.output_temp_buffer.getD (k_low + 1) (0, 0)) (csmul ratio contrib)) ∧
      (binStep ops sr N H bf spec s k).prev_analysis_phase
        = s.prev_analysis_phase.set k (ops.arg (spec.getD k (0, 0))) ∧
      (∀ j fj mj phasej, j ≠ k → j ≠ 0 →
        ops.mapper (bf.getD j 0) (ops.norm (spec.getD j (0, 0))) = (fj, mj) →
        ¬(fj < 0 ∨ sr / 2 ≤ fj) →
        fj / sr * (N : ℚ) = idx →
        phasej = s.prev_analysis_phase.getD j 0
          + 2 * PI32 * bf.getD j 0 * (H : ℚ) / sr →
        k_low ≤ N / 2 →
        (binStep ops sr N H bf spec
              (binStep ops sr N H bf spec s j) k).output_temp_buffer.getD k_low (0, 0)
          = cadd (cadd (s.output_temp_buffer.getD k_low (0, 0))
              (csmul (1 - ratio) (ops.from_polar mj phasej)))
              (csmul (1 - ratio) contrib)) := by
  have hk0 : k ≠ 0 := by omega
  subst hidx
  subst hklow
  subst hratio
  subst hphase
  subst hcontrib
  refine ⟨?_, ?_, ?_, ?_⟩
  · intro hkl
    exact binStep_out_getD_low ops sr N H bf spec s k f m hk0 hmap hacc hlen hN hkl
  · intro hkl
    exact binStep_out_getD_high ops sr N H bf spec s k f m hk0 hmap hacc hlen hN hkl
  · exact binStep_prev_set ops sr N H bf spec s k f m hk0 hmap hacc
  · intro j fj mj phasej hjk hj0 hmapj haccj heq hphasej hkl
    subst hphasej
    have hlen1 : (binStep ops sr N H bf spec s j).output_temp_buffer.length = N := by
      rw [binStep_out_length, hlen]
    have hstep2 := binStep_out_getD_low ops sr N H bf spec
      (binStep ops sr N H bf spec s j) k f m hk0 hmap hacc hlen1 hN hkl
    have hprevk : (binStep ops sr N H bf spec s j).prev_analysis_phase.getD k 0
        = s.prev_analysis_phase.getD k 0 :=
      binStep_prev_getD_ne ops sr N H bf spec s j k hjk
    rw [hprevk] at hstep2
    have hkl_j : (⌊fj / sr * (N : ℚ)⌋).toNat ≤ N / 2 := by rw [heq]; exact hkl
    have hstep1 := binStep_out_getD_low ops sr N H bf spec s j fj mj hj0 hmapj haccj
      hlen hN hkl_j
    rw [heq] at hstep1
    rw [hstep2, hstep1]

/-- Concrete spectral oracle whose remap always returns frequency 2,
below the Nyquist frequency 4 of the witness configuration. -/
def ops4 : SpectralOps :=
  { norm := Prod.fst
    arg := Prod.snd
    from_polar := fun m p => (m, p)
    mapper := fun f m => (2, m) }

section

attribute [local semireducible] Rat.mul Rat.add Rat.sub Rat.inv Rat.ofScientific

/-- Claim C4 witness: window 4 at sample rate 8, bin 1 remapped to
frequency 2 (target index 1): the low-bin deposit lands with weight
`1 − ratio` and the phase entry of bin 1 is overwritten. -/
theorem bin_interpolation_accumulates_witness :
    (ops4.mapper (bf3.getD 1 0) (ops4.norm (spec3.getD 1 (0, 0))) = (2, 1) ∧
        ¬((2 : ℚ) < 0 ∨ (8 : ℚ) / 2 ≤ 2) ∧
        s3.output_temp_buffer.length = 4 ∧
        (⌊(2 : ℚ) / 8 * ((4 : Nat) : ℚ)⌋).toNat ≤ 4 / 2) ∧
      ((binStep ops4 8 4 1 bf3 spec3 s3 1).output_temp_buffer.getD
            ((⌊(2 : ℚ) / 8 * ((4 : Nat) : ℚ)⌋).toNat) (0, 0)
          = cadd (s3.output_temp_buffer.getD
                ((⌊(2 : ℚ) / 8 * ((4 : Nat) : ℚ)⌋).toNat) (0, 0))
              (csmul (1 - ((2 : ℚ) / 8 * ((4 : Nat) : ℚ)
                  - ((⌊(2 : ℚ) / 8 * ((4 : Nat) : ℚ)⌋ : Int) : ℚ)))
                (ops4.from_polar 1 (s3.prev_analysis_phase.getD 1 0
                  + 2 * PI32 * bf3.getD 1 0 * (((1 : Nat)) : ℚ) / 8))) ∧
        (binStep ops4 8 4 1 bf3 spec3 s3 1).prev_analysis_phase
          = s3.prev_analysis_phase.set 1 (ops4.arg (spec3.getD 1 (0, 0)))) := by
  have h := bin_interpolation_accumulates ops4 8 4 1 bf3 spec3 s3 1 2 1
    ((2 : ℚ) / 8 * ((4 : Nat) : ℚ))
    ((2 : ℚ) / 8 * ((4 : Nat) : ℚ) - ((⌊(2 : ℚ) / 8 * ((4 : Nat) : ℚ)⌋ : Int) : ℚ))
    (s3.prev_analysis_phase.getD 1 0 + 2 * PI32 * bf3.getD 1 0 * (((1 : Nat)) : ℚ) / 8)
    (ops4.from_polar 1 (s3.prev_analysis_phase.getD 1 0
      + 2 * PI32 * bf3.getD 1 0 * (((1 : Nat)) : ℚ) / 8))
    ((⌊(2 : ℚ) / 8 * ((4 : Nat) : ℚ)⌋).toNat)
    (by decide) (by decide) (by decide) (by decide) (by decide) rfl rfl rfl rfl rfl
  exact ⟨⟨by decide, by decide, by decide, by decide⟩, h.1 (by decide), h.2.2.1⟩

end
